import Mathlib

/-!
Verification of the hybrid score-fusion and ranking engine of the
hybridRAG repository (`src/retrieval/hybrid_retriever.py`).

The embedding models Python floats by exact rationals (`ℚ`); all score and
weight arithmetic in the source is plain `+`, `*`, `/`, so every concrete
example of the specification is exact in `ℚ`.  Python's insertion-ordered
`dict` is modelled by an association list in which assignment to an existing
key keeps its position, and `sorted(..., reverse=True)` (a stable sort) is
modelled by `List.insertionSort` over the total preorder "greater-or-equal
combined score", which computes the unique stable descending sort.
-/

/-- A document node as returned by a search backend: an opaque integer
identity plus a bag of properties.  Two nodes with the same `id` denote the
same document even when their property bags differ. -/
structure Node where
  id : Nat
  props : List (String × String)
deriving DecidableEq

/-- The per-document accumulator built by `_combine_and_rerank`: the Python
dict value `{'node': …, 'vector_score': …, 'fulltext_score': …,
'semantic_score': …, 'combined_score': …}`. -/
structure FusedEntry where
  node : Node
  vector_score : ℚ
  fulltext_score : ℚ
  semantic_score : ℚ
  combined_score : ℚ
deriving DecidableEq

/-- The three strategy weights stored on a `HybridRetriever` instance
(`self.vector_weight`, `self.fulltext_weight`, `self.semantic_weight`). -/
structure Weights where
  vector_weight : ℚ
  fulltext_weight : ℚ
  semantic_weight : ℚ
deriving DecidableEq

/-- The default weights set in `HybridRetriever.__init__`. -/
def initialWeights : Weights := ⟨0.4, 0.3, 0.3⟩

/-- Errors an operation of the retriever can signal.
`zeroDivisionError` and `valueError` are the Python exceptions actually
raised by the source (`x /= 0.0` and `raise ValueError(...)`).
`configurationError` and `unsupportedStrategyError` are modelled from the
spec: they name the spec's §7 error-taxonomy classes ConfigurationError and
UnsupportedStrategyError, which the repository never defines; they are
present only so that statements can compare the code's exceptions against
the classes the spec names. -/
inductive PyErr where
  | zeroDivisionError : PyErr
  | valueError : String → PyErr
  | configurationError : PyErr
  | unsupportedStrategyError : String → PyErr
deriving DecidableEq

/-- A strategy result list: ordered `(node, raw score)` pairs. -/
abbrev ScoredList := List (Node × ℚ)

/-- The `combined_scores` dict of `_combine_and_rerank`, keyed by `node.id`,
in insertion order. -/
abbrev CombinedDict := List (Nat × FusedEntry)

/-- Key membership test of the Python dict (`node_id in combined_scores`). -/
def dictMem (d : CombinedDict) (k : Nat) : Bool :=
  d.any (fun p => p.1 = k)

/-- Lookup of the Python dict (`combined_scores[node_id]`), as an option. -/
def dictFind? (d : CombinedDict) (k : Nat) : Option FusedEntry :=
  (d.find? (fun p => p.1 = k)).map (fun p => p.2)

/-- Assignment of the Python dict (`combined_scores[node_id] = value`): an
existing key keeps its position and gets the new value; a new key is
appended at the end (Python dicts preserve insertion order). -/
def dictSet : CombinedDict → Nat → FusedEntry → CombinedDict
  | [], k, v => [(k, v)]
  | p :: rest, k, v => if p.1 = k then (k, v) :: rest else p :: dictSet rest k v

/-- In-place update of the value stored at an existing key (the Python
`combined_scores[node_id]['field'] = …` mutations). -/
def dictModify : CombinedDict → Nat → (FusedEntry → FusedEntry) → CombinedDict
  | [], _, _ => []
  | p :: rest, k, f => if p.1 = k then (k, f p.2) :: rest else p :: dictModify rest k f

/-- The keys of the dict, in insertion order. -/
def dictKeys (d : CombinedDict) : List Nat :=
  d.map (fun p => p.1)

/-- One iteration of the first loop of `_combine_and_rerank` ("Add vector
search scores"): a plain dict assignment. -/
def vecStep (w : Weights) (d : CombinedDict) (p : Node × ℚ) : CombinedDict :=
  dictSet d p.1.id ⟨p.1, p.2, 0, 0, p.2 * w.vector_weight⟩

/-- One iteration of the second loop of `_combine_and_rerank` ("Add fulltext
search scores"): update the existing entry's `fulltext_score` and add the
weighted score to `combined_score`, or create a fresh entry. -/
def ftStep (w : Weights) (d : CombinedDict) (p : Node × ℚ) : CombinedDict :=
  if dictMem d p.1.id then
    dictModify d p.1.id (fun e =>
      { e with fulltext_score := p.2,
               combined_score := e.combined_score + p.2 * w.fulltext_weight })
  else d ++ [(p.1.id, ⟨p.1, 0, p.2, 0, p.2 * w.fulltext_weight⟩)]

/-- One iteration of the third loop of `_combine_and_rerank` ("Add semantic
search scores"). -/
def semStep (w : Weights) (d : CombinedDict) (p : Node × ℚ) : CombinedDict :=
  if dictMem d p.1.id then
    dictModify d p.1.id (fun e =>
      { e with semantic_score := p.2,
               combined_score := e.combined_score + p.2 * w.semantic_weight })
  else d ++ [(p.1.id, ⟨p.1, 0, 0, p.2, p.2 * w.semantic_weight⟩)]

/-- The fully built `combined_scores` dict: the three loops of
`_combine_and_rerank` run over the vector, fulltext and semantic result
lists, in that fixed order, starting from the empty dict. -/
def buildCombined (w : Weights) (vector_results fulltext_results semantic_results : ScoredList) :
    CombinedDict :=
  semantic_results.foldl (semStep w)
    (fulltext_results.foldl (ftStep w)
      (vector_results.foldl (vecStep w) []))

/-- The sort key relation of `sorted(..., key=lambda x: x['combined_score'],
reverse=True)`: entry `a` may come before entry `b` iff `a`'s combined score
is at least `b`'s. -/
def scoreGE (a b : FusedEntry) : Prop :=
  b.combined_score ≤ a.combined_score

instance : DecidableRel scoreGE := fun a b =>
  inferInstanceAs (Decidable (b.combined_score ≤ a.combined_score))

instance : IsTotal FusedEntry scoreGE :=
  ⟨fun a b => (le_total b.combined_score a.combined_score).imp id id⟩

instance : IsTrans FusedEntry scoreGE :=
  ⟨fun _ _ _ h h' => le_trans h' h⟩

/-- Python's `sorted(values, key=lambda x: x['combined_score'],
reverse=True)`: the stable descending sort by combined score.  A stable sort
is uniquely determined by its ordering relation, and `List.insertionSort`
over the total preorder `scoreGE` is stable, so it computes exactly
CPython's Timsort output. -/
def sortDesc (l : List FusedEntry) : List FusedEntry :=
  l.insertionSort scoreGE

/-- Python list slicing `l[:k]` for an integer `k`: a nonnegative stop takes
the first `k` elements; a negative stop counts from the end
(`stop = max(0, len(l) + k)`). -/
def pySlice (l : List α) (k : Int) : List α :=
  if 0 ≤ k then l.take k.toNat else l.take (l.length - (-k).toNat)

/-- `HybridRetriever._combine_and_rerank`: build the accumulator dict, sort
its values by combined score descending (stably), truncate to `top_k`, and
project each entry to `(node, combined_score)`. -/
def combine_and_rerank (w : Weights)
    (vector_results fulltext_results semantic_results : ScoredList)
    (top_k : Int) : ScoredList :=
  let sorted_results :=
    sortDesc ((buildCombined w vector_results fulltext_results semantic_results).map
      (fun p => p.2))
  (pySlice sorted_results top_k).map (fun item => (item.node, item.combined_score))

/-- `HybridRetriever.set_weights`: any argument passed as `None` keeps the
current value; then all three stored weights are divided by their sum.  When
that sum is zero Python raises `ZeroDivisionError` on the first `/=`. -/
def set_weights (s : Weights)
    (vector_weight fulltext_weight semantic_weight : Option ℚ) : Except PyErr Weights :=
  let v := vector_weight.getD s.vector_weight
  let f := fulltext_weight.getD s.fulltext_weight
  let m := semantic_weight.getD s.semantic_weight
  let total_weight := v + f + m
  if total_weight = 0 then Except.error PyErr.zeroDivisionError
  else Except.ok ⟨v / total_weight, f / total_weight, m / total_weight⟩

/-- The three search backends consumed by the retriever
(`Neo4jVectorStore.vector_search`, `Neo4jFulltextRetriever.fulltext_search`,
`Neo4jFulltextRetriever.semantic_search`), abstracted as pure functions of
the arguments the retriever passes them. -/
structure Backends where
  vector_search : String → Int → ScoredList
  fulltext_search : String → String → Int → ScoredList
  semantic_search : String → String → String → Int → ScoredList

/-- `HybridRetriever._hybrid_retrieve`: fetch `top_k * 2` results from each
strategy, then combine and rerank down to `top_k`. -/
def hybrid_retrieve (B : Backends) (w : Weights) (query : String) (top_k : Int) : ScoredList :=
  combine_and_rerank w
    (B.vector_search query (top_k * 2))
    (B.fulltext_search query ("documentFulltextIndex") (top_k * 2))
    (B.semantic_search query ("Document") ("text") (top_k * 2))
    top_k

/-- `HybridRetriever.retrieve`: dispatch on the strategy string; an unknown
value raises `ValueError(f"Unknown strategy: {strategy}")`. -/
def retrieve (B : Backends) (w : Weights) (query : String) (top_k : Int)
    (strategy : String) : Except PyErr ScoredList :=
  if strategy = "vector" then
    Except.ok (B.vector_search query top_k)
  else if strategy = "fulltext" then
    Except.ok (B.fulltext_search query ("documentFulltextIndex") top_k)
  else if strategy = "semantic" then
    Except.ok (B.semantic_search query ("Document") ("text") top_k)
  else if strategy = "hybrid" then
    Except.ok (hybrid_retrieve B w query top_k)
  else
    Except.error (PyErr.valueError ("Unknown strategy: " ++ strategy))

/-- The explanation dict returned by `HybridRetriever.explain_retrieval`. -/
structure Explanation where
  query : String
  strategy_weights : Weights
  vector_results : ScoredList
  fulltext_results : ScoredList
  semantic_results : ScoredList
  hybrid_results : ScoredList
  total_results : Nat
deriving DecidableEq

/-- `HybridRetriever.explain_retrieval`: run each strategy at size `top_k`,
run `_hybrid_retrieve` at the same `top_k` (which itself over-fetches
`top_k * 2` per strategy), and package everything. -/
def explain_retrieval (B : Backends) (w : Weights) (query : String) (top_k : Int) :
    Explanation :=
  let vector_results := B.vector_search query top_k
  let fulltext_results := B.fulltext_search query ("documentFulltextIndex") top_k
  let semantic_results := B.semantic_search query ("Document") ("text") top_k
  let hybrid_results := hybrid_retrieve B w query top_k
  { query := query
    strategy_weights := w
    vector_results := vector_results
    fulltext_results := fulltext_results
    semantic_results := semantic_results
    hybrid_results := hybrid_results
    total_results := hybrid_results.length }

/-- The ids of a strategy result list, in order. -/
def idsOf (rs : ScoredList) : List Nat :=
  rs.map (fun p => p.1.id)

/-- The raw score a strategy list assigns to document id `i`: the score of
the first pair carrying that id, or `0` when the list does not contain it. -/
def lookupScore (rs : ScoredList) (i : Nat) : ℚ :=
  match rs.find? (fun p => p.1.id = i) with
  | some p => p.2
  | none => 0

/-- The first node object carrying id `i` in a result list, if any. -/
def lookupNode? (rs : ScoredList) (i : Nat) : Option Node :=
  (rs.find? (fun p => p.1.id = i)).map (fun p => p.1)

/-- Record an id as seen: append it unless it was seen already. -/
def insertFirstSeen (acc : List Nat) (i : Nat) : List Nat :=
  if i ∈ acc then acc else acc ++ [i]

/-- The distinct ids of a list in the order they are first seen. -/
def firstSeen (l : List Nat) : List Nat :=
  l.foldl insertFirstSeen []

/-- A trivial backend triple (every search returns no results), used to
instantiate theorems about the dispatch layer at a concrete input. -/
def constBackends : Backends :=
  ⟨fun _ _ => [], fun _ _ _ => [], fun _ _ _ _ => []⟩

/-- The fresh entry the vector loop writes for a pair `(node, score)`. -/
def vEntry (w : Weights) (p : Node × ℚ) : FusedEntry :=
  ⟨p.1, p.2, 0, 0, p.2 * w.vector_weight⟩

/-- The update the fulltext loop applies to an existing entry. -/
def ftUpd (w : Weights) (p : Node × ℚ) (e : FusedEntry) : FusedEntry :=
  { e with fulltext_score := p.2,
           combined_score := e.combined_score + p.2 * w.fulltext_weight }

/-- The fresh entry the fulltext loop writes for an unseen id. -/
def ftNew (w : Weights) (p : Node × ℚ) : FusedEntry :=
  ⟨p.1, 0, p.2, 0, p.2 * w.fulltext_weight⟩

/-- The update the semantic loop applies to an existing entry. -/
def semUpd (w : Weights) (p : Node × ℚ) (e : FusedEntry) : FusedEntry :=
  { e with semantic_score := p.2,
           combined_score := e.combined_score + p.2 * w.semantic_weight }

/-- The fresh entry the semantic loop writes for an unseen id. -/
def semNew (w : Weights) (p : Node × ℚ) : FusedEntry :=
  ⟨p.1, 0, 0, p.2, p.2 * w.semantic_weight⟩

/-- The common shape of the three accumulation loops: update the entry at
the pair's id when present, otherwise append a fresh entry.  Each of
`vecStep`, `ftStep`, `semStep` is an instance (proved below), which lets the
loop lemmas be proved once. -/
def gStep (upd : Node × ℚ → FusedEntry → FusedEntry) (mk : Node × ℚ → FusedEntry)
    (d : CombinedDict) (p : Node × ℚ) : CombinedDict :=
  if dictMem d p.1.id then dictModify d p.1.id (upd p) else d ++ [(p.1.id, mk p)]

/-! ### Small unfolding lemmas for the dict primitives -/

theorem dictKeys_nil : dictKeys [] = [] := rfl

theorem dictKeys_cons (p : Nat × FusedEntry) (rest : CombinedDict) :
    dictKeys (p :: rest) = p.1 :: dictKeys rest := rfl

theorem dictKeys_append (d d' : CombinedDict) :
    dictKeys (d ++ d') = dictKeys d ++ dictKeys d' := by
  simp [dictKeys]

theorem dictFind?_nil (k : Nat) : dictFind? [] k = none := rfl

theorem dictFind?_cons (p : Nat × FusedEntry) (rest : CombinedDict) (k : Nat) :
    dictFind? (p :: rest) k = if p.1 = k then some p.2 else dictFind? rest k := by
  by_cases h : p.1 = k <;> simp [dictFind?, List.find?_cons, h]

theorem dictMem_nil (k : Nat) : dictMem [] k = false := rfl

theorem dictMem_cons (p : Nat × FusedEntry) (rest : CombinedDict) (k : Nat) :
    dictMem (p :: rest) k = (decide (p.1 = k) || dictMem rest k) := by
  simp [dictMem]

theorem dictSet_cons_eq {p : Nat × FusedEntry} {k : Nat} (rest : CombinedDict) (v : FusedEntry)
    (h : p.1 = k) : dictSet (p :: rest) k v = (k, v) :: rest := by
  simp [dictSet, h]

theorem dictSet_cons_ne {p : Nat × FusedEntry} {k : Nat} (rest : CombinedDict) (v : FusedEntry)
    (h : p.1 ≠ k) : dictSet (p :: rest) k v = p :: dictSet rest k v := by
  simp [dictSet, h]

theorem dictModify_cons_eq {p : Nat × FusedEntry} {k : Nat} (rest : CombinedDict)
    (f : FusedEntry → FusedEntry) (h : p.1 = k) :
    dictModify (p :: rest) k f = (k, f p.2) :: rest := by
  simp [dictModify, h]

theorem dictModify_cons_ne {p : Nat × FusedEntry} {k : Nat} (rest : CombinedDict)
    (f : FusedEntry → FusedEntry) (h : p.1 ≠ k) :
    dictModify (p :: rest) k f = p :: dictModify rest k f := by
  simp [dictModify, h]

theorem insertFirstSeen_of_mem {acc : List Nat} {i : Nat} (h : i ∈ acc) :
    insertFirstSeen acc i = acc := by
  simp [insertFirstSeen, h]

theorem insertFirstSeen_of_not_mem {acc : List Nat} {i : Nat} (h : i ∉ acc) :
    insertFirstSeen acc i = acc ++ [i] := by
  simp [insertFirstSeen, h]

/-! ### Lemmas about the dict primitives -/

theorem dictMem_iff {d : CombinedDict} {k : Nat} :
    dictMem d k = true ↔ k ∈ dictKeys d := by
  simp [dictMem, dictKeys, List.any_eq_true, List.mem_map]

theorem dictFind?_eq_none {d : CombinedDict} {k : Nat} (h : k ∉ dictKeys d) :
    dictFind? d k = none := by
  induction d with
  | nil => rfl
  | cons p rest ih =>
    rw [dictKeys_cons, List.mem_cons, not_or] at h
    rw [dictFind?_cons, if_neg (fun he => h.1 he.symm)]
    exact ih h.2

theorem dictFind?_isSome {d : CombinedDict} {k : Nat} (h : k ∈ dictKeys d) :
    (dictFind? d k).isSome := by
  induction d with
  | nil => simp [dictKeys_nil] at h
  | cons p rest ih =>
    rw [dictFind?_cons]
    by_cases he : p.1 = k
    · simp [he]
    · rw [if_neg he]
      rw [dictKeys_cons, List.mem_cons] at h
      exact ih (h.resolve_left fun hk => he hk.symm)

theorem dictFind?_append (d d' : CombinedDict) (k : Nat) :
    dictFind? (d ++ d') k =
      match dictFind? d k with
      | some e => some e
      | none => dictFind? d' k := by
  induction d with
  | nil => rfl
  | cons p rest ih =>
    by_cases he : p.1 = k <;>
      simp [List.cons_append, dictFind?_cons, he, ih]

theorem dictKeys_dictSet (d : CombinedDict) (k : Nat) (v : FusedEntry) :
    dictKeys (dictSet d k v) = insertFirstSeen (dictKeys d) k := by
  induction d with
  | nil => simp [dictSet, dictKeys, insertFirstSeen]
  | cons p rest ih =>
    by_cases he : p.1 = k
    · subst he
      rw [dictSet_cons_eq rest v rfl, dictKeys_cons, dictKeys_cons,
        insertFirstSeen_of_mem (List.mem_cons_self _ _)]
    · rw [dictSet_cons_ne rest v he, dictKeys_cons, ih, dictKeys_cons]
      by_cases hk : k ∈ dictKeys rest
      · rw [insertFirstSeen_of_mem hk, insertFirstSeen_of_mem (List.mem_cons_of_mem _ hk)]
      · rw [insertFirstSeen_of_not_mem hk,
          insertFirstSeen_of_not_mem (by
            rw [List.mem_cons, not_or]
            exact ⟨fun hkp => he hkp.symm, hk⟩),
          List.cons_append]

theorem dictFind?_dictSet_self (d : CombinedDict) (k : Nat) (v : FusedEntry) :
    dictFind? (dictSet d k v) k = some v := by
  induction d with
  | nil =>
    show dictFind? [(k, v)] k = some v
    rw [dictFind?_cons, if_pos rfl]
  | cons p rest ih =>
    by_cases he : p.1 = k
    · rw [dictSet_cons_eq rest v he, dictFind?_cons, if_pos rfl]
    · rw [dictSet_cons_ne rest v he, dictFind?_cons, if_neg he]
      exact ih

theorem dictFind?_dictSet_ne (d : CombinedDict) {i k : Nat} (v : FusedEntry) (h : i ≠ k) :
    dictFind? (dictSet d k v) i = dictFind? d i := by
  induction d with
  | nil =>
    rw [dictFind?_nil]
    exact dictFind?_cons _ _ _ |>.trans (if_neg fun he => h (he.symm)) |>.trans (dictFind?_nil i)
  | cons p rest ih =>
    by_cases he : p.1 = k
    · rw [dictSet_cons_eq rest v he, dictFind?_cons, dictFind?_cons,
        if_neg (fun hk => h hk.symm), if_neg (fun hp => h (he ▸ hp).symm)]
    · rw [dictSet_cons_ne rest v he, dictFind?_cons, dictFind?_cons, ih]

theorem dictKeys_dictModify (d : CombinedDict) (k : Nat) (f : FusedEntry → FusedEntry) :
    dictKeys (dictModify d k f) = dictKeys d := by
  induction d with
  | nil => rfl
  | cons p rest ih =>
    by_cases he : p.1 = k
    · rw [dictModify_cons_eq rest f he, dictKeys_cons, dictKeys_cons, he]
    · rw [dictModify_cons_ne rest f he, dictKeys_cons, dictKeys_cons, ih]

theorem dictFind?_dictModify_self (d : CombinedDict) (k : Nat) (f : FusedEntry → FusedEntry) :
    dictFind? (dictModify d k f) k = (dictFind? d k).map f := by
  induction d with
  | nil => rfl
  | cons p rest ih =>
    by_cases he : p.1 = k
    · rw [dictModify_cons_eq rest f he, dictFind?_cons, dictFind?_cons, if_pos rfl, if_pos he]
      rfl
    · rw [dictModify_cons_ne rest f he, dictFind?_cons, dictFind?_cons, if_neg he, if_neg he, ih]

theorem dictFind?_dictModify_ne (d : CombinedDict) {i k : Nat} (f : FusedEntry → FusedEntry)
    (h : i ≠ k) : dictFind? (dictModify d k f) i = dictFind? d i := by
  induction d with
  | nil => rfl
  | cons p rest ih =>
    by_cases he : p.1 = k
    · rw [dictModify_cons_eq rest f he, dictFind?_cons, dictFind?_cons,
        if_neg (fun hk => h hk.symm), if_neg (fun hp => h (he ▸ hp).symm)]
    · rw [dictModify_cons_ne rest f he, dictFind?_cons, dictFind?_cons, ih]

theorem mem_dictModify {d : CombinedDict} {k : Nat} {f : FusedEntry → FusedEntry}
    {q : Nat × FusedEntry} (h : q ∈ dictModify d k f) :
    q ∈ d ∨ ∃ e, (k, e) ∈ d ∧ q = (k, f e) := by
  induction d with
  | nil => simp [dictModify] at h
  | cons p rest ih =>
    by_cases he : p.1 = k
    · rw [dictModify_cons_eq rest f he, List.mem_cons] at h
      rcases h with h | h
      · exact Or.inr ⟨p.2, by rw [← he]; exact List.mem_cons_self _ _, h⟩
      · exact Or.inl (List.mem_cons_of_mem _ h)
    · rw [dictModify_cons_ne rest f he, List.mem_cons] at h
      rcases h with h | h
      · exact Or.inl (h ▸ List.mem_cons_self _ _)
      · rcases ih h with h' | ⟨e, he', hq⟩
        · exact Or.inl (List.mem_cons_of_mem _ h')
        · exact Or.inr ⟨e, List.mem_cons_of_mem _ he', hq⟩

theorem dictFind?_eq_of_mem_nodup {d : CombinedDict} {i : Nat} {e : FusedEntry}
    (hn : (dictKeys d).Nodup) (h : (i, e) ∈ d) : dictFind? d i = some e := by
  induction d with
  | nil => simp at h
  | cons p rest ih =>
    rw [dictKeys_cons, List.nodup_cons] at hn
    rcases List.mem_cons.mp h with h | h
    · rw [← h, dictFind?_cons, if_pos rfl]
    · have hne : p.1 ≠ i := fun hpi => hn.1 (hpi ▸ List.mem_map_of_mem (fun q => q.1) h)
      rw [dictFind?_cons, if_neg hne]
      exact ih hn.2 h

/-! ### The three loops as instances of the generic step -/

theorem dictSet_eq_branch (d : CombinedDict) (k : Nat) (v : FusedEntry) :
    dictSet d k v = if dictMem d k then dictModify d k (fun _ => v) else d ++ [(k, v)] := by
  induction d with
  | nil => rfl
  | cons p rest ih =>
    by_cases he : p.1 = k
    · have hm : dictMem (p :: rest) k = true := by
        rw [dictMem_cons]
        simp [he]
      rw [dictSet_cons_eq rest v he, if_pos hm, dictModify_cons_eq rest _ he]
    · rw [dictSet_cons_ne rest v he, dictModify_cons_ne rest _ he, ih, dictMem_cons,
        decide_eq_false he, Bool.false_or]
      by_cases hm : dictMem rest k
      · rw [if_pos hm, if_pos hm]
      · rw [if_neg hm, if_neg hm, List.cons_append]

theorem vecStep_eq (w : Weights) :
    ∀ d p, vecStep w d p = gStep (fun q _ => vEntry w q) (vEntry w) d p := by
  intro d p
  simp only [vecStep, gStep, vEntry]
  exact dictSet_eq_branch d p.1.id _

theorem ftStep_eq (w : Weights) :
    ∀ d p, ftStep w d p = gStep (ftUpd w) (ftNew w) d p := by
  intro d p
  rfl

theorem semStep_eq (w : Weights) :
    ∀ d p, semStep w d p = gStep (semUpd w) (semNew w) d p := by
  intro d p
  rfl

theorem foldl_congr_step {f g : CombinedDict → Node × ℚ → CombinedDict}
    (h : ∀ d p, f d p = g d p) (rs : ScoredList) (d : CombinedDict) :
    rs.foldl f d = rs.foldl g d := by
  induction rs generalizing d with
  | nil => rfl
  | cons p rest ih => rw [List.foldl_cons, List.foldl_cons, h, ih]

theorem buildCombined_eq (w : Weights) (vr fr sr : ScoredList) :
    buildCombined w vr fr sr =
      sr.foldl (gStep (semUpd w) (semNew w))
        (fr.foldl (gStep (ftUpd w) (ftNew w))
          (vr.foldl (gStep (fun q _ => vEntry w q) (vEntry w)) [])) := by
  simp only [buildCombined]
  rw [foldl_congr_step (vecStep_eq w), foldl_congr_step (ftStep_eq w),
    foldl_congr_step (semStep_eq w)]

/-! ### Generic lemmas about one accumulation step -/

theorem dictFind?_gStep_self (upd : Node × ℚ → FusedEntry → FusedEntry)
    (mk : Node × ℚ → FusedEntry) (d : CombinedDict) (p : Node × ℚ) :
    dictFind? (gStep upd mk d p) p.1.id =
      some (match dictFind? d p.1.id with | some e => upd p e | none => mk p) := by
  by_cases hm : dictMem d p.1.id
  · rw [gStep, if_pos hm, dictFind?_dictModify_self]
    obtain ⟨e, he⟩ := Option.isSome_iff_exists.mp (dictFind?_isSome (dictMem_iff.mp hm))
    rw [he]
    rfl
  · have hnone : dictFind? d p.1.id = none :=
      dictFind?_eq_none fun hk => hm (dictMem_iff.mpr hk)
    rw [gStep, if_neg hm, dictFind?_append, hnone]
    show dictFind? [(p.1.id, mk p)] p.1.id = some (mk p)
    rw [dictFind?_cons, if_pos rfl]

theorem dictFind?_gStep_ne (upd : Node × ℚ → FusedEntry → FusedEntry)
    (mk : Node × ℚ → FusedEntry) (d : CombinedDict) (p : Node × ℚ) {i : Nat}
    (h : i ≠ p.1.id) : dictFind? (gStep upd mk d p) i = dictFind? d i := by
  by_cases hm : dictMem d p.1.id
  · rw [gStep, if_pos hm, dictFind?_dictModify_ne _ _ h]
  · rw [gStep, if_neg hm, dictFind?_append,
      show dictFind? [(p.1.id, mk p)] i = none from by
        rw [dictFind?_cons, if_neg fun hp => h hp.symm, dictFind?_nil]]
    cases dictFind? d i <;> rfl

theorem dictKeys_gStep (upd : Node × ℚ → FusedEntry → FusedEntry)
    (mk : Node × ℚ → FusedEntry) (d : CombinedDict) (p : Node × ℚ) :
    dictKeys (gStep upd mk d p) = insertFirstSeen (dictKeys d) p.1.id := by
  by_cases hm : dictMem d p.1.id
  · rw [gStep, if_pos hm, dictKeys_dictModify, insertFirstSeen_of_mem (dictMem_iff.mp hm)]
  · rw [gStep, if_neg hm, dictKeys_append,
      insertFirstSeen_of_not_mem fun hk => hm (dictMem_iff.mpr hk)]
    rfl

/-! ### Generic lemmas about a whole accumulation loop -/

theorem dictFind?_foldl_gStep_of_not_mem (upd : Node × ℚ → FusedEntry → FusedEntry)
    (mk : Node × ℚ → FusedEntry) (rs : ScoredList) (d : CombinedDict) {i : Nat}
    (h : i ∉ idsOf rs) : dictFind? (rs.foldl (gStep upd mk) d) i = dictFind? d i := by
  induction rs generalizing d with
  | nil => rfl
  | cons p rest ih =>
    rw [idsOf, List.map_cons, List.mem_cons, not_or] at h
    rw [List.foldl_cons, ih _ (by simpa [idsOf] using h.2), dictFind?_gStep_ne _ _ _ _ h.1]

theorem dictFind?_foldl_gStep (upd : Node × ℚ → FusedEntry → FusedEntry)
    (mk : Node × ℚ → FusedEntry) (rs : ScoredList) (hn : (idsOf rs).Nodup)
    (d : CombinedDict) (i : Nat) :
    dictFind? (rs.foldl (gStep upd mk) d) i =
      match rs.find? (fun p => p.1.id = i) with
      | some p => some (match dictFind? d i with | some e => upd p e | none => mk p)
      | none => dictFind? d i := by
  induction rs generalizing d with
  | nil => rfl
  | cons p rest ih =>
    rw [idsOf, List.map_cons, List.nodup_cons] at hn
    rw [List.foldl_cons]
    by_cases hi : p.1.id = i
    · subst hi
      rw [dictFind?_foldl_gStep_of_not_mem _ _ _ _ (by simpa [idsOf] using hn.1),
        dictFind?_gStep_self,
        show (p :: rest).find? (fun q => q.1.id = p.1.id) = some p from
          List.find?_cons_of_pos _ (by simp)]
    · rw [ih (by simpa [idsOf] using hn.2) (gStep upd mk d p),
        show (p :: rest).find? (fun q => q.1.id = i) = rest.find? (fun q => q.1.id = i) from
          List.find?_cons_of_neg _ (by simp [hi]),
        dictFind?_gStep_ne _ _ _ _ fun he => hi he.symm]

theorem dictKeys_foldl_gStep (upd : Node × ℚ → FusedEntry → FusedEntry)
    (mk : Node × ℚ → FusedEntry) (rs : ScoredList) (d : CombinedDict) :
    dictKeys (rs.foldl (gStep upd mk) d) = (idsOf rs).foldl insertFirstSeen (dictKeys d) := by
  induction rs generalizing d with
  | nil => rfl
  | cons p rest ih =>
    simp only [idsOf, List.map_cons, List.foldl_cons]
    rw [ih, dictKeys_gStep]
    rfl

/-! ### First-seen order -/

theorem mem_foldl_insertFirstSeen {l acc : List Nat} {j : Nat} :
    j ∈ l.foldl insertFirstSeen acc ↔ j ∈ acc ∨ j ∈ l := by
  induction l generalizing acc with
  | nil => simp
  | cons i rest ih =>
    rw [List.foldl_cons, ih, List.mem_cons]
    by_cases hm : i ∈ acc
    · rw [insertFirstSeen_of_mem hm]
      constructor
      · rintro (h | h)
        · exact Or.inl h
        · exact Or.inr (Or.inr h)
      · rintro (h | h | h)
        · exact Or.inl h
        · exact Or.inl (h ▸ hm)
        · exact Or.inr h
    · rw [insertFirstSeen_of_not_mem hm, List.mem_append, List.mem_singleton]
      tauto

theorem nodup_foldl_insertFirstSeen (l : List Nat) (acc : List Nat) (h : acc.Nodup) :
    (l.foldl insertFirstSeen acc).Nodup := by
  induction l generalizing acc with
  | nil => exact h
  | cons i rest ih =>
    rw [List.foldl_cons]
    refine ih _ ?_
    by_cases hm : i ∈ acc
    · rw [insertFirstSeen_of_mem hm]
      exact h
    · rw [insertFirstSeen_of_not_mem hm]
      refine List.Nodup.append h (List.nodup_singleton i) ?_
      intro a ha ha'
      rw [List.mem_singleton] at ha'
      exact hm (ha' ▸ ha)

theorem firstSeen_nodup (l : List Nat) : (firstSeen l).Nodup :=
  nodup_foldl_insertFirstSeen l [] List.nodup_nil

/-! ### The keys of the accumulator are the ids in first-seen order -/

theorem dictKeys_buildCombined (w : Weights) (vr fr sr : ScoredList) :
    dictKeys (buildCombined w vr fr sr) = firstSeen (idsOf (vr ++ fr ++ sr)) := by
  rw [buildCombined_eq, dictKeys_foldl_gStep, dictKeys_foldl_gStep, dictKeys_foldl_gStep]
  simp only [firstSeen, idsOf, dictKeys, List.map_append, List.foldl_append, List.map_nil]

theorem dictKeys_buildCombined_nodup (w : Weights) (vr fr sr : ScoredList) :
    (dictKeys (buildCombined w vr fr sr)).Nodup := by
  rw [dictKeys_buildCombined]
  exact firstSeen_nodup _

/-! ### Every stored entry's node carries the entry's key as its id -/

theorem nodeId_gStep (upd : Node × ℚ → FusedEntry → FusedEntry)
    (mk : Node × ℚ → FusedEntry)
    (hupd : ∀ p e, (upd p e).node = e.node ∨ (upd p e).node.id = p.1.id)
    (hmk : ∀ p, (mk p).node.id = p.1.id) (d : CombinedDict) (p : Node × ℚ)
    (hd : ∀ q ∈ d, q.2.node.id = q.1) : ∀ q ∈ gStep upd mk d p, q.2.node.id = q.1 := by
  intro q hq
  rw [gStep] at hq
  by_cases hm : dictMem d p.1.id
  · rw [if_pos hm] at hq
    rcases mem_dictModify hq with h | ⟨e, he, hq'⟩
    · exact hd q h
    · subst hq'
      rcases hupd p e with h' | h'
      · rw [h']
        exact hd _ he
      · exact h'
  · rw [if_neg hm] at hq
    rcases List.mem_append.mp hq with h | h
    · exact hd q h
    · rw [List.mem_singleton] at h
      subst h
      exact hmk p

theorem nodeId_foldl_gStep (upd : Node × ℚ → FusedEntry → FusedEntry)
    (mk : Node × ℚ → FusedEntry)
    (hupd : ∀ p e, (upd p e).node = e.node ∨ (upd p e).node.id = p.1.id)
    (hmk : ∀ p, (mk p).node.id = p.1.id) (rs : ScoredList) (d : CombinedDict)
    (hd : ∀ q ∈ d, q.2.node.id = q.1) :
    ∀ q ∈ rs.foldl (gStep upd mk) d, q.2.node.id = q.1 := by
  induction rs generalizing d with
  | nil => exact hd
  | cons p rest ih =>
    exact fun q hq => ih _ (nodeId_gStep upd mk hupd hmk d p hd) q hq

theorem nodeId_buildCombined (w : Weights) (vr fr sr : ScoredList) :
    ∀ q ∈ buildCombined w vr fr sr, q.2.node.id = q.1 := by
  rw [buildCombined_eq]
  refine nodeId_foldl_gStep (semUpd w) (semNew w) (fun p e => Or.inl rfl) (fun p => rfl) sr _ ?_
  refine nodeId_foldl_gStep (ftUpd w) (ftNew w) (fun p e => Or.inl rfl) (fun p => rfl) fr _ ?_
  refine nodeId_foldl_gStep (fun q _ => vEntry w q) (vEntry w) (fun p e => Or.inr rfl)
    (fun p => rfl) vr _ ?_
  intro q hq
  simp at hq

/-! ### Lookup helpers -/

theorem lookupScore_of_find?_eq_some {rs : ScoredList} {i : Nat} {p : Node × ℚ}
    (h : rs.find? (fun q => q.1.id = i) = some p) : lookupScore rs i = p.2 := by
  simp only [lookupScore, h]

theorem lookupScore_of_find?_eq_none {rs : ScoredList} {i : Nat}
    (h : rs.find? (fun q => q.1.id = i) = none) : lookupScore rs i = 0 := by
  simp only [lookupScore, h]

/-! ### Full characterization of the accumulator under duplicate-free inputs -/

theorem buildCombined_find?_spec (w : Weights) (vr fr sr : ScoredList)
    (hv : (idsOf vr).Nodup) (hf : (idsOf fr).Nodup) (hs : (idsOf sr).Nodup)
    {i : Nat} {e : FusedEntry} (he : dictFind? (buildCombined w vr fr sr) i = some e) :
    e.vector_score = lookupScore vr i ∧
    e.fulltext_score = lookupScore fr i ∧
    e.semantic_score = lookupScore sr i ∧
    e.combined_score =
      lookupScore vr i * w.vector_weight + lookupScore fr i * w.fulltext_weight +
        lookupScore sr i * w.semantic_weight ∧
    lookupNode? (vr ++ fr ++ sr) i = some e.node := by
  rw [buildCombined_eq] at he
  rw [dictFind?_foldl_gStep (semUpd w) (semNew w) sr hs _ i] at he
  rw [dictFind?_foldl_gStep (ftUpd w) (ftNew w) fr hf _ i] at he
  rw [dictFind?_foldl_gStep (fun q _ => vEntry w q) (vEntry w) vr hv _ i] at he
  rw [dictFind?_nil] at he
  rcases hfv : vr.find? (fun p => p.1.id = i) with _ | pv <;>
    rcases hff : fr.find? (fun p => p.1.id = i) with _ | pf <;>
      rcases hfs : sr.find? (fun p => p.1.id = i) with _ | ps <;>
        rw [hfv, hff, hfs] at he <;>
        simp only [Option.some.injEq] at he <;>
        first
        | exact absurd he (by simp)
        | (subst he
           refine ⟨?_, ?_, ?_, ?_, ?_⟩ <;>
             simp [vEntry, ftUpd, ftNew, semUpd, semNew, lookupScore, lookupNode?,
               List.find?_append, Option.or, hfv, hff, hfs])

/-! ### Facts about entries of the accumulator and of the final output -/

theorem mem_buildCombined_spec (w : Weights) (vr fr sr : ScoredList)
    (hv : (idsOf vr).Nodup) (hf : (idsOf fr).Nodup) (hs : (idsOf sr).Nodup)
    {q : Nat × FusedEntry} (hq : q ∈ buildCombined w vr fr sr) :
    q.2.vector_score = lookupScore vr q.1 ∧
    q.2.fulltext_score = lookupScore fr q.1 ∧
    q.2.semantic_score = lookupScore sr q.1 ∧
    q.2.combined_score =
      lookupScore vr q.1 * w.vector_weight + lookupScore fr q.1 * w.fulltext_weight +
        lookupScore sr q.1 * w.semantic_weight ∧
    lookupNode? (vr ++ fr ++ sr) q.1 = some q.2.node :=
  buildCombined_find?_spec w vr fr sr hv hf hs
    (dictFind?_eq_of_mem_nodup (dictKeys_buildCombined_nodup w vr fr sr) hq)

theorem pySlice_sublist (l : List α) (k : Int) : List.Sublist (pySlice l k) l := by
  rw [pySlice]
  by_cases h : 0 ≤ k
  · rw [if_pos h]
    exact List.take_sublist _ _
  · rw [if_neg h]
    exact List.take_sublist _ _

theorem mem_combine_and_rerank (w : Weights) (vr fr sr : ScoredList) (k : Int)
    {p : Node × ℚ} (hp : p ∈ combine_and_rerank w vr fr sr k) :
    ∃ q ∈ buildCombined w vr fr sr, p = (q.2.node, q.2.combined_score) := by
  rw [combine_and_rerank] at hp
  obtain ⟨e, he, hpe⟩ := List.mem_map.mp hp
  have he' : e ∈ sortDesc ((buildCombined w vr fr sr).map (fun q => q.2)) :=
    (pySlice_sublist _ k).mem he
  rw [sortDesc, List.mem_insertionSort, List.mem_map] at he'
  obtain ⟨q, hq, hqe⟩ := he'
  exact ⟨q, hq, by rw [← hpe, hqe]⟩

theorem combine_and_rerank_pairwise (w : Weights) (vr fr sr : ScoredList) (k : Int) :
    (combine_and_rerank w vr fr sr k).Pairwise (fun a b => b.2 ≤ a.2) := by
  rw [combine_and_rerank]
  rw [List.pairwise_map]
  refine List.Pairwise.sublist (pySlice_sublist _ k) ?_
  exact List.sorted_insertionSort scoreGE _

/-! ### Stability of the descending sort -/

theorem filter_sortDesc (l : List FusedEntry) (c : ℚ) :
    (sortDesc l).filter (fun e => e.combined_score = c) =
      l.filter (fun e => e.combined_score = c) := by
  have hpair : (l.filter (fun e => decide (e.combined_score = c))).Pairwise scoreGE := by
    refine List.pairwise_of_forall_mem_list ?_
    intro a ha b hb
    have ha' := (List.mem_filter.mp ha).2
    have hb' := (List.mem_filter.mp hb).2
    rw [decide_eq_true_eq] at ha' hb'
    rw [scoreGE, ha', hb']
  have hsub : List.Sublist (l.filter (fun e => e.combined_score = c)) (sortDesc l) := by
    rw [sortDesc]
    exact List.sublist_insertionSort hpair (List.filter_sublist l)
  have hsub2 : List.Sublist (l.filter (fun e => e.combined_score = c))
      ((sortDesc l).filter (fun e => e.combined_score = c)) := by
    have := List.Sublist.filter (fun e => decide (e.combined_score = c)) hsub
    simpa [List.filter_filter] using this
  have hperm : ((sortDesc l).filter (fun e => e.combined_score = c)).length =
      (l.filter (fun e => e.combined_score = c)).length :=
    List.Perm.length_eq (List.Perm.filter _ (List.perm_insertionSort scoreGE l))
  exact (List.Sublist.eq_of_length hsub2 hperm.symm).symm

/-! ### The values of the accumulator carry the first-seen id order -/

theorem values_map_id_eq_firstSeen (w : Weights) (vr fr sr : ScoredList) :
    ((buildCombined w vr fr sr).map (fun q => q.2)).map (fun e => e.node.id) =
      firstSeen (idsOf (vr ++ fr ++ sr)) := by
  rw [List.map_map, ← dictKeys_buildCombined w vr fr sr, dictKeys]
  exact List.map_congr_left fun q hq => nodeId_buildCombined w vr fr sr q hq

/-! ### The vector loop over fresh ids is a plain append -/

theorem foldl_vecStep_fresh (w : Weights) (A : ScoredList) (d : CombinedDict)
    (hd : ∀ p ∈ A, p.1.id ∉ dictKeys d) (hn : (idsOf A).Nodup) :
    A.foldl (vecStep w) d = d ++ A.map (fun p => (p.1.id, vEntry w p)) := by
  induction A generalizing d with
  | nil => simp
  | cons p rest ih =>
    rw [idsOf, List.map_cons, List.nodup_cons] at hn
    rw [List.foldl_cons, List.map_cons]
    have hstep : vecStep w d p = d ++ [(p.1.id, vEntry w p)] := by
      rw [vecStep_eq w d p, gStep,
        if_neg fun hm => hd p (List.mem_cons_self _ _) (dictMem_iff.mp hm)]
    rw [hstep, ih (d ++ [(p.1.id, vEntry w p)]) ?fresh (by simpa [idsOf] using hn.2),
      List.append_assoc, List.singleton_append]
    case fresh =>
      intro q hq
      rw [dictKeys_append, List.mem_append, not_or]
      refine ⟨hd q (List.mem_cons_of_mem _ hq), ?_⟩
      rw [show dictKeys [(p.1.id, vEntry w p)] = [p.1.id] from rfl, List.mem_singleton]
      intro hqp
      exact hn.1 (hqp ▸ List.mem_map_of_mem (fun r => r.1.id) hq)

/-! ### Remaining helper lemmas for the claim theorems -/

theorem lookupScore_eq_zero_of_not_mem {rs : ScoredList} {i : Nat} (h : i ∉ idsOf rs) :
    lookupScore rs i = 0 := by
  refine lookupScore_of_find?_eq_none (List.find?_eq_none.mpr ?_)
  intro p hp hc
  rw [decide_eq_true_eq] at hc
  exact h (hc ▸ List.mem_map_of_mem (fun q => q.1.id) hp)

theorem combine_and_rerank_ids_nodup (w : Weights) (vr fr sr : ScoredList) (k : Int) :
    ((combine_and_rerank w vr fr sr k).map (fun p => p.1.id)).Nodup := by
  have hnodup : (((buildCombined w vr fr sr).map (fun p => p.2)).map
      (fun e => e.node.id)).Nodup := by
    rw [values_map_id_eq_firstSeen]
    exact firstSeen_nodup _
  have hperm := (List.perm_insertionSort scoreGE
    ((buildCombined w vr fr sr).map (fun p => p.2))).map (fun e => e.node.id)
  have hsorted : ((List.insertionSort scoreGE
      ((buildCombined w vr fr sr).map (fun p => p.2))).map (fun e => e.node.id)).Nodup :=
    (List.Perm.nodup_iff hperm).mpr hnodup
  simp only [combine_and_rerank, List.map_map]
  show (List.map (fun e => e.node.id)
    (pySlice (List.insertionSort scoreGE ((buildCombined w vr fr sr).map (fun p => p.2))) k)).Nodup
  exact List.Nodup.sublist (List.Sublist.map _ (pySlice_sublist _ _)) hsorted

/-! ### Claim theorems -/

/-- C1: in every fusion call over duplicate-free strategy result lists, every
document in the output has `combined_score` equal to the weighted sum, over
exactly those strategies whose input list contains the document's id, of
that strategy's raw score times that strategy's weight (`lookupScore`
returns the strategy's raw score, and `0` for a strategy that did not return
the document — as the last conjunct states explicitly, so an absent strategy
contributes exactly `0`); moreover each accumulator entry's per-strategy
score field equals that strategy's raw score, hence `0.0` for a strategy
that did not return the document. -/
theorem combined_score_is_weighted_sum_over_returning_strategies
    (w : Weights) (vr fr sr : ScoredList) (k : Int)
    (hv : (idsOf vr).Nodup) (hf : (idsOf fr).Nodup) (hs : (idsOf sr).Nodup) :
    (∀ p ∈ combine_and_rerank w vr fr sr k,
      p.2 = lookupScore vr p.1.id * w.vector_weight +
        lookupScore fr p.1.id * w.fulltext_weight +
        lookupScore sr p.1.id * w.semantic_weight) ∧
    (∀ q ∈ buildCombined w vr fr sr,
      q.2.vector_score = lookupScore vr q.1 ∧
      q.2.fulltext_score = lookupScore fr q.1 ∧
      q.2.semantic_score = lookupScore sr q.1) ∧
    (∀ rs : ScoredList, ∀ i : Nat, i ∉ idsOf rs → lookupScore rs i = 0) := by
  refine ⟨?_, ?_, fun rs i hi => lookupScore_eq_zero_of_not_mem hi⟩
  · intro p hp
    obtain ⟨q, hq, hpe⟩ := mem_combine_and_rerank w vr fr sr k hp
    subst hpe
    have hspec := mem_buildCombined_spec w vr fr sr hv hf hs hq
    have hid : q.2.node.id = q.1 := nodeId_buildCombined w vr fr sr q hq
    show q.2.combined_score = _
    rw [show (q.2.node, q.2.combined_score).1.id = q.1 from hid]
    exact hspec.2.2.2.1
  · intro q hq
    have hspec := mem_buildCombined_spec w vr fr sr hv hf hs hq
    exact ⟨hspec.1, hspec.2.1, hspec.2.2.1⟩

/-- Witness for C1 at the spec's concrete example: one document returned by
vector (raw 0.8) and fulltext (raw 0.6) under weights 0.5/0.5/0 gets
combined score 0.70, and its accumulator entry's semantic score field is
0.0. -/
theorem combined_score_weighted_sum_witness :
    ((idsOf [((⟨0, []⟩ : Node), (0.8 : ℚ))]).Nodup ∧
     (idsOf [((⟨0, []⟩ : Node), (0.6 : ℚ))]).Nodup ∧
     (idsOf ([] : ScoredList)).Nodup) ∧
    ((∀ p ∈ combine_and_rerank ⟨0.5, 0.5, 0⟩ [(⟨0, []⟩, 0.8)] [(⟨0, []⟩, 0.6)] [] 5,
        p.2 = lookupScore [(⟨0, []⟩, 0.8)] p.1.id * 0.5 +
          lookupScore [(⟨0, []⟩, 0.6)] p.1.id * 0.5 +
          lookupScore [] p.1.id * 0) ∧
     (∀ q ∈ buildCombined ⟨0.5, 0.5, 0⟩ [(⟨0, []⟩, 0.8)] [(⟨0, []⟩, 0.6)] [],
        q.2.vector_score = lookupScore [(⟨0, []⟩, 0.8)] q.1 ∧
        q.2.fulltext_score = lookupScore [(⟨0, []⟩, 0.6)] q.1 ∧
        q.2.semantic_score = lookupScore [] q.1) ∧
     (∀ rs : ScoredList, ∀ i : Nat, i ∉ idsOf rs → lookupScore rs i = 0)) ∧
    combine_and_rerank ⟨0.5, 0.5, 0⟩ [(⟨0, []⟩, 0.8)] [(⟨0, []⟩, 0.6)] [] 5 =
      [(⟨0, []⟩, 0.7)] ∧
    buildCombined ⟨0.5, 0.5, 0⟩ [(⟨0, []⟩, 0.8)] [(⟨0, []⟩, 0.6)] [] =
      [(0, ⟨⟨0, []⟩, 0.8, 0.6, 0, 0.7⟩)] :=
  ⟨⟨by decide, by decide, by decide⟩,
   combined_score_is_weighted_sum_over_returning_strategies ⟨0.5, 0.5, 0⟩
     [(⟨0, []⟩, 0.8)] [(⟨0, []⟩, 0.6)] [] 5 (by decide) (by decide) (by decide),
   by norm_num [combine_and_rerank, buildCombined, vecStep, ftStep, semStep, dictSet,
     dictMem, dictModify, sortDesc, List.insertionSort, List.orderedInsert, scoreGE,
     pySlice, vEntry],
   by norm_num [buildCombined, vecStep, ftStep, semStep, dictSet, dictMem, dictModify,
     vEntry]⟩

/-- C2: the fused output is sorted by combined score descending
(`Pairwise`), and entries with exactly equal combined scores keep the
relative order in which their ids were first seen while iterating the input
lists in the fixed order vector, fulltext, semantic: the equal-score ids of
the output embed order-preservingly (`List.Sublist`) into `firstSeen` of all
input ids.  Determinism for identical inputs and unchanged weights is
immediate because `combine_and_rerank` is a pure function of its
arguments. -/
theorem fused_output_sorted_desc_with_stable_ties
    (w : Weights) (vr fr sr : ScoredList) (k : Int) :
    (combine_and_rerank w vr fr sr k).Pairwise (fun a b => b.2 ≤ a.2) ∧
    (∀ c : ℚ, List.Sublist
      (((combine_and_rerank w vr fr sr k).filter (fun p => p.2 = c)).map (fun p => p.1.id))
      (firstSeen (idsOf (vr ++ fr ++ sr)))) := by
  refine ⟨combine_and_rerank_pairwise w vr fr sr k, fun c => ?_⟩
  simp only [combine_and_rerank]
  rw [List.filter_map, List.map_map]
  show List.Sublist (List.map (fun e => e.node.id)
    ((pySlice (sortDesc ((buildCombined w vr fr sr).map (fun p => p.2))) k).filter
      (fun e => decide (e.combined_score = c))))
    (firstSeen (idsOf (vr ++ fr ++ sr)))
  have h1 := List.Sublist.filter (fun e => decide (e.combined_score = c))
    (pySlice_sublist (sortDesc ((buildCombined w vr fr sr).map (fun p => p.2))) k)
  rw [filter_sortDesc] at h1
  have h2 := List.Sublist.map (fun e => e.node.id)
    (h1.trans (List.filter_sublist _))
  rw [values_map_id_eq_firstSeen] at h2
  exact h2

/-- C3: whenever the three weights after substituting the given arguments
(an omitted `none` argument keeps the current value) have positive sum,
`set_weights` succeeds and the stored weights sum to exactly 1 in the
rational model, hence in particular within the spec's floating-point
tolerance of `1e-9`.  The pre-state `s` is arbitrary, so the invariant holds
after every mutation, including those starting at the initial default
0.4/0.3/0.3. -/
theorem set_weights_normalizes_to_unit_sum (s : Weights) (v f m : Option ℚ)
    (h : 0 < v.getD s.vector_weight + f.getD s.fulltext_weight + m.getD s.semantic_weight) :
    ∃ w', set_weights s v f m = Except.ok w' ∧
      w'.vector_weight + w'.fulltext_weight + w'.semantic_weight = 1 ∧
      |w'.vector_weight + w'.fulltext_weight + w'.semantic_weight - 1| ≤ 1 / 1000000000 := by
  have ht : v.getD s.vector_weight + f.getD s.fulltext_weight + m.getD s.semantic_weight ≠ 0 :=
    ne_of_gt h
  have hok : set_weights s v f m = Except.ok
      ⟨v.getD s.vector_weight /
        (v.getD s.vector_weight + f.getD s.fulltext_weight + m.getD s.semantic_weight),
       f.getD s.fulltext_weight /
        (v.getD s.vector_weight + f.getD s.fulltext_weight + m.getD s.semantic_weight),
       m.getD s.semantic_weight /
        (v.getD s.vector_weight + f.getD s.fulltext_weight + m.getD s.semantic_weight)⟩ := by
    simp only [set_weights]
    rw [if_neg ht]
  have hsum : v.getD s.vector_weight /
        (v.getD s.vector_weight + f.getD s.fulltext_weight + m.getD s.semantic_weight) +
      f.getD s.fulltext_weight /
        (v.getD s.vector_weight + f.getD s.fulltext_weight + m.getD s.semantic_weight) +
      m.getD s.semantic_weight /
        (v.getD s.vector_weight + f.getD s.fulltext_weight + m.getD s.semantic_weight) = 1 := by
    rw [div_add_div_same, div_add_div_same, div_self ht]
  exact ⟨_, hok, hsum, by rw [show _ = (1 : ℚ) from hsum]; norm_num⟩

/-- Witness for C3: starting from the initial default weights and setting
only the vector weight to 1 (the other two arguments omitted), the stored
weights sum to 1. -/
theorem set_weights_unit_sum_witness :
    (0 < (some (1 : ℚ)).getD initialWeights.vector_weight +
      (none : Option ℚ).getD initialWeights.fulltext_weight +
      (none : Option ℚ).getD initialWeights.semantic_weight) ∧
    (∃ w', set_weights initialWeights (some 1) none none = Except.ok w' ∧
      w'.vector_weight + w'.fulltext_weight + w'.semantic_weight = 1 ∧
      |w'.vector_weight + w'.fulltext_weight + w'.semantic_weight - 1| ≤ 1 / 1000000000) :=
  ⟨by norm_num [initialWeights],
   set_weights_normalizes_to_unit_sum initialWeights (some 1) none none
     (by norm_num [initialWeights])⟩

/-- C4 counterexample: `set_weights(0,0,0)` raises Python's
`ZeroDivisionError` (the first `/=` divides by the zero total), not an
exception of the spec's ConfigurationError class — no such class exists in
the repository. -/
theorem set_weights_zero_error_class_counterexample :
    set_weights initialWeights (some 0) (some 0) (some 0) =
      Except.error PyErr.zeroDivisionError ∧
    PyErr.zeroDivisionError ≠ PyErr.configurationError :=
  ⟨by norm_num [set_weights, initialWeights], by decide⟩

/-- C4 amended: `set_weights(0,0,0)` from any stored weights fails fast by
raising `ZeroDivisionError` (Python's float division by zero raises instead
of producing NaN), so no NaN weights are ever stored; the raised exception
is a `ZeroDivisionError`, not a dedicated ConfigurationError. -/
theorem set_weights_all_zero_raises_zero_division (s : Weights) :
    set_weights s (some 0) (some 0) (some 0) = Except.error PyErr.zeroDivisionError := by
  simp [set_weights]

/-- C5 counterexample: a fusion call with `topK = -1` over a two-document
vector list returns a non-empty list — Python's `sorted_results[:top_k]`
slice with a negative stop keeps all but the last `|topK|` entries. -/
theorem fuse_negative_topk_counterexample :
    combine_and_rerank ⟨1, 0, 0⟩ [(⟨0, []⟩, 1), (⟨1, []⟩, 2)] [] [] (-1) ≠ [] := by
  norm_num [combine_and_rerank, buildCombined, vecStep, ftStep, semStep, dictSet, dictMem,
    dictModify, sortDesc, List.insertionSort, List.orderedInsert, scoreGE, pySlice, vEntry]

/-- C5 amended: a fusion call with `topK = 0` returns the empty list for any
input lists and raises no error; for negative `topK` the empty-result
guarantee does not hold, because Python slice semantics drop only the last
`|topK|` sorted entries. -/
theorem fuse_topk_zero_returns_empty (w : Weights) (vr fr sr : ScoredList) :
    combine_and_rerank w vr fr sr 0 = [] := by
  simp [combine_and_rerank, pySlice]

/-- C6: `explain_retrieval` performs the three strategy calls at size `topK`
(not over-fetched), packages one `_hybrid_retrieve` call at the same `topK`
(which itself over-fetches `topK * 2` from each strategy before fusing), and
its `hybrid_results` block is identical to what a direct
`retrieve(query, topK, "hybrid")` call returns under the same weights and
backends — the explainer contains no independent ranking logic. -/
theorem explain_retrieval_composes_fusion (B : Backends) (w : Weights) (q : String) (k : Int) :
    (explain_retrieval B w q k).vector_results = B.vector_search q k ∧
    (explain_retrieval B w q k).fulltext_results =
      B.fulltext_search q ("documentFulltextIndex") k ∧
    (explain_retrieval B w q k).semantic_results =
      B.semantic_search q ("Document") ("text") k ∧
    (explain_retrieval B w q k).hybrid_results = hybrid_retrieve B w q k ∧
    retrieve B w q k ("hybrid") = Except.ok ((explain_retrieval B w q k).hybrid_results) ∧
    hybrid_retrieve B w q k =
      combine_and_rerank w (B.vector_search q (k * 2))
        (B.fulltext_search q ("documentFulltextIndex") (k * 2))
        (B.semantic_search q ("Document") ("text") (k * 2)) k ∧
    (explain_retrieval B w q k).total_results = (hybrid_retrieve B w q k).length ∧
    (explain_retrieval B w q k).strategy_weights = w :=
  ⟨rfl, rfl, rfl, rfl, rfl, rfl, rfl, rfl⟩

/-- C7 counterexample: `retrieve(query, k, "bogus")` fails with Python's
`ValueError("Unknown strategy: bogus")` — the error message names the
invalid value, but the exception is a plain `ValueError`, not an exception
of the spec's UnsupportedStrategyError class, which the repository never
defines. -/
theorem retrieve_unknown_strategy_error_class_counterexample :
    retrieve constBackends initialWeights ("q") 5 ("bogus") =
      Except.error (PyErr.valueError ("Unknown strategy: bogus")) ∧
    PyErr.valueError ("Unknown strategy: bogus") ≠
      PyErr.unsupportedStrategyError ("bogus") :=
  ⟨rfl, by decide⟩

/-- C7 amended: a strategy value outside {vector, fulltext, semantic,
hybrid} makes `retrieve` fail with `ValueError` whose message names the
invalid value, and each known value dispatches to exactly one backend
call. -/
theorem retrieve_dispatch_and_unknown_strategy (B : Backends) (w : Weights) (q : String)
    (k : Int) (strategy : String)
    (h : strategy ∉ (["vector", "fulltext", "semantic", "hybrid"] : List String)) :
    retrieve B w q k strategy =
      Except.error (PyErr.valueError ("Unknown strategy: " ++ strategy)) ∧
    retrieve B w q k ("vector") = Except.ok (B.vector_search q k) ∧
    retrieve B w q k ("fulltext") =
      Except.ok (B.fulltext_search q ("documentFulltextIndex") k) ∧
    retrieve B w q k ("semantic") =
      Except.ok (B.semantic_search q ("Document") ("text") k) ∧
    retrieve B w q k ("hybrid") = Except.ok (hybrid_retrieve B w q k) := by
  simp only [List.mem_cons, List.not_mem_nil, or_false, not_or] at h
  refine ⟨?_, rfl, rfl, rfl, rfl⟩
  rw [retrieve, if_neg h.1, if_neg h.2.1, if_neg h.2.2.1, if_neg h.2.2.2]

/-- Witness for C7 at the spec's concrete example, strategy "bogus". -/
theorem retrieve_unknown_strategy_witness :
    (("bogus" : String) ∉ (["vector", "fulltext", "semantic", "hybrid"] : List String)) ∧
    (retrieve constBackends initialWeights ("q") 5 ("bogus") =
      Except.error (PyErr.valueError ("Unknown strategy: " ++ "bogus")) ∧
    retrieve constBackends initialWeights ("q") 5 ("vector") =
      Except.ok (constBackends.vector_search ("q") 5) ∧
    retrieve constBackends initialWeights ("q") 5 ("fulltext") =
      Except.ok (constBackends.fulltext_search ("q") ("documentFulltextIndex") 5) ∧
    retrieve constBackends initialWeights ("q") 5 ("semantic") =
      Except.ok (constBackends.semantic_search ("q") ("Document") ("text") 5) ∧
    retrieve constBackends initialWeights ("q") 5 ("hybrid") =
      Except.ok (hybrid_retrieve constBackends initialWeights ("q") 5)) :=
  ⟨by decide,
   retrieve_dispatch_and_unknown_strategy constBackends initialWeights ("q") 5 ("bogus")
     (by decide)⟩

/-- C8 counterexample: fusing a vector-only list that is NOT sorted by score
descending, with weights (1,0,0) and `n ≤ k`, does not return the list
unchanged — the fusion re-sorts by combined score, so the two documents come
back in the opposite order. -/
theorem fuse_single_list_unchanged_counterexample :
    combine_and_rerank ⟨1, 0, 0⟩ [(⟨0, []⟩, 0), (⟨1, []⟩, 1)] [] [] 2 ≠
      [(⟨0, []⟩, 0), (⟨1, []⟩, 1)] := by
  norm_num [combine_and_rerank, buildCombined, vecStep, ftStep, semStep, dictSet, dictMem,
    dictModify, sortDesc, List.insertionSort, List.orderedInsert, scoreGE, pySlice, vEntry]
  decide

/-- C8 amended: fusing a single vector list `A` with two empty lists under
weights (1,0,0) returns `A` unchanged in order and score, provided `A` has
at most `k` entries, pairwise-distinct ids, and is already sorted by score
descending (a strategy result list's normal shape; without sortedness the
fusion's own descending sort reorders `A`, and a duplicated id would be
collapsed by the accumulator). -/
theorem fuse_single_sorted_list_identity (A : ScoredList) (k : Int)
    (hn : (idsOf A).Nodup)
    (hsorted : A.Pairwise (fun p q => q.2 ≤ p.2))
    (hk : (A.length : Int) ≤ k) :
    combine_and_rerank ⟨1, 0, 0⟩ A [] [] k = A := by
  have hbuild : buildCombined ⟨1, 0, 0⟩ A [] [] =
      A.map (fun p => (p.1.id, vEntry ⟨1, 0, 0⟩ p)) := by
    have h := foldl_vecStep_fresh ⟨1, 0, 0⟩ A [] (fun p _ => by simp [dictKeys]) hn
    simpa [buildCombined] using h
  have hvals : (buildCombined ⟨1, 0, 0⟩ A [] []).map (fun p => p.2) =
      A.map (fun p => vEntry ⟨1, 0, 0⟩ p) := by
    rw [hbuild, List.map_map]
    rfl
  have hpair : (A.map (fun p => vEntry ⟨1, 0, 0⟩ p)).Pairwise scoreGE := by
    rw [List.pairwise_map]
    refine hsorted.imp ?_
    intro p q hpq
    simpa [scoreGE, vEntry] using hpq
  have hsort : sortDesc (A.map (fun p => vEntry ⟨1, 0, 0⟩ p)) =
      A.map (fun p => vEntry ⟨1, 0, 0⟩ p) :=
    List.Sorted.insertionSort_eq hpair
  have hlen : (A.map (fun p => vEntry ⟨1, 0, 0⟩ p)).length ≤ k.toNat := by
    rw [List.length_map]
    omega
  have hslice : pySlice (A.map (fun p => vEntry ⟨1, 0, 0⟩ p)) k =
      A.map (fun p => vEntry ⟨1, 0, 0⟩ p) := by
    rw [pySlice, if_pos (by omega : (0 : Int) ≤ k)]
    exact List.take_of_length_le hlen
  simp only [combine_and_rerank, hvals, hsort, hslice, List.map_map]
  refine (List.map_congr_left ?_).trans (List.map_id A)
  intro p hp
  simp [vEntry]

/-- Witness for C8 at a concrete sorted two-document list. -/
theorem fuse_single_sorted_list_identity_witness :
    ((idsOf [((⟨0, []⟩ : Node), (2 : ℚ)), (⟨1, []⟩, 1)]).Nodup ∧
     ([((⟨0, []⟩ : Node), (2 : ℚ)), (⟨1, []⟩, 1)] : ScoredList).Pairwise
       (fun p q => q.2 ≤ p.2) ∧
     ((([((⟨0, []⟩ : Node), (2 : ℚ)), (⟨1, []⟩, 1)] : ScoredList).length : Int) ≤ 2)) ∧
    combine_and_rerank ⟨1, 0, 0⟩ [(⟨0, []⟩, 2), (⟨1, []⟩, 1)] [] [] 2 =
      [(⟨0, []⟩, 2), (⟨1, []⟩, 1)] :=
  ⟨⟨by decide, by norm_num [List.pairwise_cons], by norm_num⟩,
   fuse_single_sorted_list_identity [(⟨0, []⟩, 2), (⟨1, []⟩, 1)] 2 (by decide)
     (by norm_num [List.pairwise_cons]) (by norm_num)⟩

/-- C9 counterexample: `set_weights(-0.4, 0.3, 0.3)` does not fail — it
silently renormalizes by the sum 0.2 and stores the corrupted weights
(-2, 1.5, 1.5), the first of which is negative. -/
theorem set_weights_negative_weight_counterexample :
    set_weights initialWeights (some (-0.4)) (some 0.3) (some 0.3) =
      Except.ok ⟨-2, 3 / 2, 3 / 2⟩ ∧ (-2 : ℚ) < 0 :=
  ⟨by norm_num [set_weights, initialWeights], by norm_num⟩

/-- C9 amended: `set_weights` performs no negativity validation: for any
weights with nonzero sum — including negative ones — it succeeds and stores
the renormalized values (which can themselves be negative); the only failure
mode is `ZeroDivisionError` when the sum is zero. -/
theorem set_weights_accepts_negative_weights (s : Weights) (a b c : ℚ)
    (h : a + b + c ≠ 0) :
    set_weights s (some a) (some b) (some c) =
      Except.ok ⟨a / (a + b + c), b / (a + b + c), c / (a + b + c)⟩ := by
  simp only [set_weights, Option.getD_some]
  rw [if_neg h]

/-- Witness for C9's amended statement at the negative triple
(-0.4, 0.3, 0.3). -/
theorem set_weights_accepts_negative_weights_witness :
    ((-0.4 : ℚ) + 0.3 + 0.3 ≠ 0) ∧
    set_weights initialWeights (some (-0.4)) (some 0.3) (some 0.3) =
      Except.ok ⟨(-0.4) / ((-0.4) + 0.3 + 0.3), 0.3 / ((-0.4) + 0.3 + 0.3),
        0.3 / ((-0.4) + 0.3 + 0.3)⟩ :=
  ⟨by norm_num,
   set_weights_accepts_negative_weights initialWeights (-0.4) 0.3 0.3 (by norm_num)⟩

/-- C10: over duplicate-free strategy lists, each document id occurs at most
once in the fused output, and every accumulator entry keeps the node object
of the first occurrence of its id in the fixed iteration order (vector, then
fulltext, then semantic — `lookupNode?` over the concatenation); later
occurrences change only their own strategy's score field and the running
combined score, since every per-strategy field equals that strategy's own
raw score (`0` when absent) and the stored node is the first occurrence's
node object. -/
theorem fused_ids_unique_and_node_from_first_occurrence
    (w : Weights) (vr fr sr : ScoredList) (k : Int)
    (hv : (idsOf vr).Nodup) (hf : (idsOf fr).Nodup) (hs : (idsOf sr).Nodup) :
    ((combine_and_rerank w vr fr sr k).map (fun p => p.1.id)).Nodup ∧
    (∀ q ∈ buildCombined w vr fr sr,
      lookupNode? (vr ++ fr ++ sr) q.1 = some q.2.node ∧
      q.2.vector_score = lookupScore vr q.1 ∧
      q.2.fulltext_score = lookupScore fr q.1 ∧
      q.2.semantic_score = lookupScore sr q.1 ∧
      q.2.combined_score = lookupScore vr q.1 * w.vector_weight +
        lookupScore fr q.1 * w.fulltext_weight +
        lookupScore sr q.1 * w.semantic_weight) := by
  refine ⟨combine_and_rerank_ids_nodup w vr fr sr k, fun q hq => ?_⟩
  have hspec := mem_buildCombined_spec w vr fr sr hv hf hs hq
  exact ⟨hspec.2.2.2.2, hspec.1, hspec.2.1, hspec.2.2.1, hspec.2.2.2.1⟩

/-- Witness for C10: the same id 5 returned by vector and fulltext with
different property bags; the fused entry keeps the vector occurrence's node
(props `("a","x")`), sets both score fields, and combines 1×0.5 + 2×0.5 =
1.5. -/
theorem fused_ids_unique_witness :
    ((idsOf [((⟨5, [("a", "x")]⟩ : Node), (1 : ℚ))]).Nodup ∧
     (idsOf [((⟨5, [("b", "y")]⟩ : Node), (2 : ℚ))]).Nodup ∧
     (idsOf ([] : ScoredList)).Nodup) ∧
    (((combine_and_rerank ⟨0.5, 0.5, 0⟩ [(⟨5, [("a", "x")]⟩, 1)]
        [(⟨5, [("b", "y")]⟩, 2)] [] 5).map (fun p => p.1.id)).Nodup ∧
     (∀ q ∈ buildCombined ⟨0.5, 0.5, 0⟩ [(⟨5, [("a", "x")]⟩, 1)]
        [(⟨5, [("b", "y")]⟩, 2)] [],
       lookupNode? ([(⟨5, [("a", "x")]⟩, 1)] ++ [(⟨5, [("b", "y")]⟩, 2)] ++ []) q.1 =
         some q.2.node ∧
       q.2.vector_score = lookupScore [(⟨5, [("a", "x")]⟩, 1)] q.1 ∧
       q.2.fulltext_score = lookupScore [(⟨5, [("b", "y")]⟩, 2)] q.1 ∧
       q.2.semantic_score = lookupScore [] q.1 ∧
       q.2.combined_score = lookupScore [(⟨5, [("a", "x")]⟩, 1)] q.1 * 0.5 +
         lookupScore [(⟨5, [("b", "y")]⟩, 2)] q.1 * 0.5 +
         lookupScore [] q.1 * 0)) ∧
    buildCombined ⟨0.5, 0.5, 0⟩ [(⟨5, [("a", "x")]⟩, 1)] [(⟨5, [("b", "y")]⟩, 2)] [] =
      [(5, ⟨⟨5, [("a", "x")]⟩, 1, 2, 0, 1.5⟩)] :=
  ⟨⟨by decide, by decide, by decide⟩,
   fused_ids_unique_and_node_from_first_occurrence ⟨0.5, 0.5, 0⟩
     [(⟨5, [("a", "x")]⟩, 1)] [(⟨5, [("b", "y")]⟩, 2)] [] 5
     (by decide) (by decide) (by decide),
   by norm_num [buildCombined, vecStep, ftStep, semStep, dictSet, dictMem, dictModify,
     vEntry]⟩
